import Mathlib

/-!
Verification of the BibleSearch repository's query-compilation and matching
engine against its natural-language specification.

The development shallowly embeds the relevant Python code of
`bible_reader.py` and `streamlit_app.py`:

* strings are modelled as `List Char`;
* Python `int(...)` is modelled by `pyInt` (ASCII whitespace stripping, an
  optional sign, decimal digits with single underscores between digits);
* Python `str.split()` (split on whitespace runs) is `splitWs`,
  `str.rsplit(":", 1)` is `rsplitColon`, `str.split(sep)` is `splitOnSeq`,
  `str.strip()` is `stripWsBoth`, and `sep in s` is `hasSub`;
* `re.escape` is `reEscape` (the Python >= 3.7 special-character set);
* the module-level corpus build loop of `bible_reader.py` (lines 103-112)
  is `buildBible`, with the `defaultdict` intermediate-access side effect
  modelled by `touch`;
* the query classifier of `search` (`bible_reader.py` lines 216-251) is
  `compileQuery`, producing a structured `Compiled` value whose regex text
  is recovered by `patternString`;
* `re.Pattern.search` on the pattern shapes actually generated by the
  compiler (escaped literals, `\b`-wrapped literals, alternations, and
  conjunctions of `(?=.*frag)` lookaheads followed by `.*`) is `msearchO`;
  the semantics of a verbatim user-supplied regex body is a parameter
  (`oracle`), since the code hands such bodies to `re` uninterpreted;
* the hit collection `[(r, t) for r, t in raw.items() if pattern.search(t)]`
  (`bible_reader.py` line 254) is `executeM`.

The model is ASCII-faithful: Python's Unicode-aware whitespace, digit and
case-folding behaviour is restricted to its ASCII fragment, which covers
every concrete input used below.
-/

namespace BibleSearch

/-- ASCII whitespace, the ASCII fragment of the characters stripped by
Python's `str.strip()` / `str.split()` / `int()`. -/
def isSpaceCh (c : Char) : Bool :=
  c = ' ' || c = '\t' || c = '\n' || c = '\r' || c = '\x0b' || c = '\x0c'

/-- Decimal digit value of an ASCII digit character. -/
def digitVal (c : Char) : Option Nat :=
  if '0' ≤ c ∧ c ≤ '9' then some (c.toNat - 48) else none

/-- Word character for Python's `\b` / `\w` (ASCII fragment):
letters, digits and underscore. -/
def isWordCh (c : Char) : Bool :=
  c.isAlphanum || c = '_'

/-- Python assignment-free association lookup with a default
(`m[k] if present else d`); also reused as the lowercase table lookup. -/
def getDefault {α : Type} [DecidableEq α] {β : Type} (m : List (α × β)) (k : α) (d : β) : β :=
  match m with
  | [] => d
  | (k0, v0) :: rest => if k0 = k then v0 else getDefault rest k d

/-- The ASCII uppercase-to-lowercase table. -/
def lcMap : List (Char × Char) :=
  [('A', 'a'), ('B', 'b'), ('C', 'c'), ('D', 'd'), ('E', 'e'), ('F', 'f'),
   ('G', 'g'), ('H', 'h'), ('I', 'i'), ('J', 'j'), ('K', 'k'), ('L', 'l'),
   ('M', 'm'), ('N', 'n'), ('O', 'o'), ('P', 'p'), ('Q', 'q'), ('R', 'r'),
   ('S', 's'), ('T', 't'), ('U', 'u'), ('V', 'v'), ('W', 'w'), ('X', 'x'),
   ('Y', 'y'), ('Z', 'z')]

/-- ASCII lowercasing of one character (the ASCII fragment of Python's
case folding). -/
def lowerCh (c : Char) : Char :=
  getDefault lcMap c c

/-- Case folding used to model `re.IGNORECASE` (ASCII fragment):
when the pattern is case-insensitive both pattern literals and the text
are lowered before comparison. -/
def foldCase (cs : Bool) (s : List Char) : List Char :=
  if cs then s else s.map lowerCh

/-- `litPre p s` holds when the character list `p` is a prefix of `s`
(character-by-character equality). -/
def litPre : List Char → List Char → Bool
  | [], _ => true
  | _ :: _, [] => false
  | a :: as, b :: bs => a = b && litPre as bs

/-- The literal `lit` occurs in `text` starting exactly at index `k`. -/
def litAt (lit text : List Char) (k : Nat) : Bool :=
  litPre lit (text.drop k)

/-- Index of the first occurrence of `pat` in `s`
(Python `s.find(pat)`, `none` for absence). -/
def findOcc (pat : List Char) : List Char → Option Nat
  | [] => if litPre pat [] then some 0 else none
  | c :: tl =>
    if litPre pat (c :: tl) then some 0
    else (findOcc pat tl).map (· + 1)

/-- Python's substring containment test `pat in s`. -/
def hasSub (pat s : List Char) : Bool :=
  (findOcc pat s).isSome

theorem litPre_length_le : ∀ p s : List Char, litPre p s = true → p.length ≤ s.length := by
  intro p
  induction p with
  | nil => intro s _; exact Nat.zero_le _
  | cons a as ih =>
    intro s h
    cases s with
    | nil => simp [litPre] at h
    | cons b bs =>
      simp only [litPre, Bool.and_eq_true] at h
      simpa [List.length_cons] using Nat.succ_le_succ (ih bs h.2)

theorem findOcc_bound : ∀ s : List Char, ∀ pat i, findOcc pat s = some i →
    i + pat.length ≤ s.length := by
  intro s
  induction s with
  | nil =>
    intro pat i h
    simp only [findOcc] at h
    by_cases hp : litPre pat [] = true
    · simp [hp] at h
      cases pat with
      | nil => simp [← h]
      | cons c cs => simp [litPre] at hp
    · simp [hp] at h
  | cons c tl ih =>
    intro pat i h
    simp only [findOcc] at h
    by_cases hp : litPre pat (c :: tl) = true
    · simp [hp] at h
      subst h
      simpa using litPre_length_le pat (c :: tl) hp
    · simp [hp] at h
      obtain ⟨j, hj, rfl⟩ := h
      have := ih pat j hj
      simp [List.length_cons]
      omega

/-- `findOcc` really locates an occurrence. -/
theorem findOcc_spec : ∀ s : List Char, ∀ pat i, findOcc pat s = some i →
    litPre pat (s.drop i) = true := by
  intro s
  induction s with
  | nil =>
    intro pat i h
    simp only [findOcc] at h
    by_cases hp : litPre pat [] = true
    · simp [hp] at h; simpa [← h] using hp
    · simp [hp] at h
  | cons c tl ih =>
    intro pat i h
    simp only [findOcc] at h
    by_cases hp : litPre pat (c :: tl) = true
    · simp [hp] at h; subst h; simpa using hp
    · simp [hp] at h
      obtain ⟨j, hj, rfl⟩ := h
      simpa using ih pat j hj

theorem litPre_mem : ∀ p s : List Char, litPre p s = true → ∀ c ∈ p, c ∈ s := by
  intro p
  induction p with
  | nil => intro s _ c hc; simp at hc
  | cons a as ih =>
    intro s h c hc
    cases s with
    | nil => simp [litPre] at h
    | cons b bs =>
      simp only [litPre, Bool.and_eq_true, decide_eq_true_eq] at h
      rcases List.mem_cons.mp hc with rfl | hc'
      · simp [h.1]
      · exact List.mem_cons_of_mem _ (ih bs h.2 c hc')

/-- A character of a substring occurrence is a character of the string. -/
theorem hasSub_mem (pat s : List Char) (h : hasSub pat s = true) :
    ∀ c ∈ pat, c ∈ s := by
  unfold hasSub at h
  cases hf : findOcc pat s with
  | none => simp [hf] at h
  | some i =>
    intro c hc
    have := litPre_mem pat (s.drop i) (findOcc_spec s pat i hf) c hc
    exact List.mem_of_mem_drop this

/-- Fuelled body of `splitOnSeq`: each recursive step removes at least one
character (the separator is non-empty), so fuel `s.length` always
suffices and the base case is unreachable. -/
def splitOnSeqF (sep : List Char) : Nat → List Char → List (List Char)
  | 0, s => [s]
  | fuel + 1, s =>
    match findOcc sep s with
    | none => [s]
    | some i => s.take i :: splitOnSeqF sep fuel (s.drop (i + sep.length))

/-- Python `s.split(sep)` for a non-empty separator: split at each
left-to-right non-overlapping occurrence. -/
def splitOnSeq (sep : List Char) (s : List Char) : List (List Char) :=
  if sep = [] then [s] else splitOnSeqF sep s.length s

/-- Python `str.strip()` (ASCII fragment): drop whitespace from both ends. -/
def stripWsBoth (s : List Char) : List Char :=
  ((s.dropWhile isSpaceCh).reverse.dropWhile isSpaceCh).reverse

/-- Python `str.split()` with no separator: split on runs of whitespace,
dropping empty pieces. -/
def splitWs : List Char → List (List Char)
  | [] => []
  | c :: rest =>
    if isSpaceCh c then splitWs rest
    else
      match rest with
      | [] => [[c]]
      | c2 :: _ =>
        if isSpaceCh c2 then [c] :: splitWs rest
        else
          match splitWs rest with
          | [] => [[c]]        -- unreachable: a non-whitespace head yields a token
          | t :: ts => (c :: t) :: ts

/-- Python `" ".join(parts)`. -/
def joinSpace (parts : List (List Char)) : List Char :=
  List.intercalate [' '] parts

/-- Digit run with single underscores allowed between digits, continuing an
accumulated value: the tail of Python `int` literal parsing. -/
def parseUDGo (acc : Nat) : List Char → Option Nat
  | [] => some acc
  | c :: rest =>
    if c = '_' then
      match rest with
      | [] => none
      | c2 :: rest2 =>
        match digitVal c2 with
        | none => none
        | some d => parseUDGo (acc * 10 + d) rest2
    else
      match digitVal c with
      | none => none
      | some d => parseUDGo (acc * 10 + d) rest

/-- Unsigned decimal digits (with Python's single-underscore grouping):
the digit part of `int(...)`. -/
def parseUD : List Char → Option Nat
  | [] => none
  | c :: rest =>
    match digitVal c with
    | none => none
    | some d => parseUDGo d rest

/-- Python `int(s)` (ASCII fragment): strip whitespace, optional single
sign, then underscore-grouped decimal digits. -/
def pyInt (s : List Char) : Option Int :=
  match stripWsBoth s with
  | [] => none
  | c :: rest =>
    if c = '+' then (parseUD rest).map Int.ofNat
    else if c = '-' then (parseUD rest).map (fun n => -(Int.ofNat n))
    else (parseUD (c :: rest)).map Int.ofNat

/-- Fuelled body of `natToChars`: the argument shrinks to `n / 10` each
step, so fuel `n` always suffices and the base case is unreachable. -/
def natToCharsF : Nat → Nat → List Char
  | 0, n => [Char.ofNat (48 + n % 10)]
  | fuel + 1, n =>
    if n < 10 then [Char.ofNat (48 + n)]
    else natToCharsF fuel (n / 10) ++ [Char.ofNat (48 + n % 10)]

/-- Decimal digits of a natural number (Python `str` of a non-negative int). -/
def natToChars (n : Nat) : List Char :=
  natToCharsF n n

/-- Python `str` of an int: decimal digits with a leading `-` when negative. -/
def intToChars (i : Int) : List Char :=
  if i < 0 then '-' :: natToChars (-i).toNat else natToChars i.toNat

/-- Python `s.rsplit(":", 1)` restricted to the two-element success case:
split at the last colon. -/
def rsplitColon : List Char → Option (List Char × List Char)
  | [] => none
  | c :: rest =>
    match rsplitColon rest with
    | some (a, b) => some (c :: a, b)
    | none => if c = ':' then some ([], rest) else none

/-- ASCII decimal digit test, the condition of `digitVal`. -/
def isDigitCh (c : Char) : Bool :=
  decide ('0' ≤ c ∧ c ≤ '9')

/-- One step of accumulating a decimal value over digit characters. -/
def foldDigit (a : Nat) (c : Char) : Nat :=
  a * 10 + (c.toNat - 48)

/-- A parsed verse reference: book name, chapter and verse.  Chapter and
verse are `Int` because Python `int(...)` (used by the parse loop) accepts
signed values. -/
structure Ref where
  book : List Char
  chap : Int
  verse : Int
deriving DecidableEq, Repr

/-- Outcome of running the key-parsing statements of the corpus build loop
(`bible_reader.py` lines 106-110) on one key, staged in the order the
Python expressions are evaluated:
`rsplit(":", 1)` unpacking (`ValueError` when no colon), `parts[-1]`
(`IndexError` when the pre-colon part has no whitespace token),
`int(parts[-1])` (`ValueError`), then `int(verse)` (`ValueError`, raised
only after the `defaultdict` accesses `bible[book][chap]` have occurred,
hence the book and chapter are carried by `badVerse`). -/
inductive KeyParse
  | noColon
  | ixErr
  | badChap
  | badVerse (book : List Char) (chap : Int)
  | okParse (r : Ref)
deriving DecidableEq, Repr

/-- Staged parse of one corpus key, following `bible_reader.py` lines
106-110 (identical parsing appears in `streamlit_app.py` lines 48-53). -/
def classifyKey (key : List Char) : KeyParse :=
  match rsplitColon key with
  | none => .noColon
  | some (bc, vs) =>
    let parts := splitWs bc
    match parts.getLast? with
    | none => .ixErr
    | some lastTok =>
      let book := joinSpace parts.dropLast
      match pyInt lastTok with
      | none => .badChap
      | some chap =>
        match pyInt vs with
        | none => .badVerse book chap
        | some v => .okParse ⟨book, chap, v⟩

/-- Error class of a failed key decode: Python `ValueError` (caught by the
build loop) or `IndexError` (not caught). -/
inductive DecodeErr
  | valueError
  | indexError
deriving DecidableEq, Repr

/-- The Reference Codec `decode`: the key-parsing pipeline of the corpus
build loop viewed as a function from a key to a reference or an error. -/
def decodeKey (key : List Char) : Except DecodeErr Ref :=
  match classifyKey key with
  | .okParse r => .ok r
  | .ixErr => .error .indexError
  | _ => .error .valueError

/-- Modelled from the spec: the repository never defines an explicit
`encode`; the spec's Reference Codec specifies the canonical key format
`"<Book> <Chapter>:<Verse>"` (the format of the corpus keys themselves,
reassembled by `go_to_ref` / the `search` result branch as
`" ".join(parts[:-1])`, `parts[-1]`, and the verse). -/
def encodeRef (r : Ref) : List Char :=
  r.book ++ ' ' :: (intToChars r.chap ++ ':' :: intToChars r.verse)

/-- Insertion-ordered verse map of one chapter: Python `dict[int, str]`. -/
abbrev VMap := List (Int × List Char)

/-- Insertion-ordered chapter map of one book. -/
abbrev CMap := List (Int × VMap)

/-- The nested index `bible : book → chapter → verse → text`
(`defaultdict` of `defaultdict` of `dict`), insertion-ordered. -/
abbrev Bible := List (List Char × CMap)

instance : DecidableEq VMap := inferInstance

instance : DecidableEq CMap := inferInstance

instance : DecidableEq Bible := inferInstance

/-- Python `dict` assignment `d[k] = v`: update in place when the key
exists (keeping its position), append otherwise. -/
def setKey {α : Type} [DecidableEq α] {β : Type} (m : List (α × β)) (k : α) (v : β) :
    List (α × β) :=
  match m with
  | [] => [(k, v)]
  | (k0, v0) :: rest =>
    if k0 = k then (k0, v) :: rest else (k0, v0) :: setKey rest k v

/-- The side effect of evaluating `bible[book][chap]` on the nested
`defaultdict`: both levels are created (empty) when absent. -/
def touch (B : Bible) (book : List Char) (chap : Int) : Bible :=
  setKey B book (setKey (getDefault B book []) chap (getDefault (getDefault B book []) chap []))

/-- The successful assignment `bible[book][chap][int(verse)] = txt`. -/
def insertVerse (B : Bible) (book : List Char) (chap verse : Int) (txt : List Char) : Bible :=
  setKey B book (setKey (getDefault B book []) chap
    (setKey (getDefault (getDefault B book []) chap []) verse txt))

/-- One iteration of the corpus build loop (`bible_reader.py` lines
104-112): `none` models the uncaught `IndexError` (the whole build
aborts); otherwise the new index and whether a "Could not parse reference"
diagnostic was printed. -/
def buildStep (B : Bible) (key txt : List Char) : Option (Bible × Bool) :=
  match classifyKey key with
  | .noColon => some (B, true)
  | .ixErr => none
  | .badChap => some (B, true)
  | .badVerse book chap => some (touch B book chap, true)
  | .okParse r => some (insertVerse B r.book r.chap r.verse txt, false)

/-- The corpus build loop from an intermediate index: returns the final
index together with the keys reported in diagnostics, or `none` when an
uncaught `IndexError` aborts the build. -/
def buildAux (B : Bible) : List (List Char × List Char) → Option (Bible × List (List Char))
  | [] => some (B, [])
  | (k, t) :: rest =>
    match buildStep B k t with
    | none => none
    | some (B', diag) =>
      (buildAux B' rest).map fun p => (p.1, if diag then k :: p.2 else p.2)

/-- The whole module-level corpus build (`bible_reader.py` lines 103-112). -/
def buildBible (raw : List (List Char × List Char)) : Option (Bible × List (List Char)) :=
  buildAux [] raw

/-- All verse-level bindings of the nested index, flattened in order. -/
def verseBindings (B : Bible) : List (List Char × Int × Int × List Char) :=
  B.flatMap fun bcm => bcm.2.flatMap fun cvm => cvm.2.map fun vt => (bcm.1, cvm.1, vt.1, vt.2)

/-- A boolean-query operand after `_token_to_regex` classification
(`bible_reader.py` lines 208-213): the carried string is the raw interior
(quotes / `=` removed), before `re.escape`. -/
inductive Tok
  | phrase (s : List Char)
  | word (s : List Char)
  | sub (s : List Char)
deriving DecidableEq, Repr

/-- A compiled matcher: the structured form of the pattern built by
`search` (`bible_reader.py` lines 216-251) plus the resolved
case-sensitivity flag (`cs or False` at each `_compile` call). -/
inductive Compiled
  | regexM (body : List Char) (cs : Bool)
  | andM (toks : List Tok) (cs : Bool)
  | orM (toks : List Tok) (cs : Bool)
  | singleM (t : Tok) (cs : Bool)
deriving DecidableEq, Repr

/-- Query-compilation failure: the only rejection in `search` is the mixed
`&`/`|` branch (lines 231-233, "Mixing & and | not allowed", returning
without a matcher). -/
inductive QueryErr
  | mixedBoolean
deriving DecidableEq, Repr

/-- The query ends with the two characters `:` then `c`
(Python `query.endswith(":c")` for a one-letter `c`). -/
def endsWith2 (a b : Char) (s : List Char) : Bool :=
  match s.reverse with
  | c2 :: c1 :: _ => c1 = a && c2 = b
  | _ => false

/-- Case-flag stripping of `search` (`bible_reader.py` lines 219-223):
`:c` forces `some true`, `:i` forces `some false`, otherwise the flag
stays `none` (Python `cs = None`). -/
def stripFlags (q : List Char) : List Char × Option Bool :=
  if endsWith2 ':' 'c' q then (q.dropLast.dropLast, some true)
  else if endsWith2 ':' 'i' q then (q.dropLast.dropLast, some false)
  else (q, none)

/-- `_token_to_regex` / the single-token branch of `search`: phrase when
wrapped in double quotes, whole-word when prefixed with `=`, else plain
substring.  (A single `"` character passes both quote tests and yields an
empty phrase, exactly as Python's `tok[1:-1]` does.) -/
def tokenize (tok : List Char) : Tok :=
  if tok.head? = some '"' ∧ tok.getLast? = some '"' then .phrase (tok.drop 1).dropLast
  else if tok.head? = some '=' then .word (tok.drop 1)
  else .sub tok

/-- The raw-regex test of `search` line 226 and `streamlit_app.py` line
248: starts and ends with `/` and has length at least 3. -/
def regexForm (q : List Char) : Bool :=
  q.head? = some '/' && q.getLast? = some '/' && decide (3 ≤ q.length)

/-- Python's literal separator `" & "`. -/
def sepAmp : List Char := [' ', '&', ' ']

/-- Python's literal separator `" | "`. -/
def sepPipe : List Char := [' ', '|', ' ']

/-- The classifier of `search` after case-flag stripping
(`bible_reader.py` lines 226-251), with the still-optional flag resolved
by `cs or False` at each compile site. -/
def compileAfter (query : List Char) (cs : Option Bool) : Except QueryErr Compiled :=
  if regexForm query then
    .ok (.regexM ((query.drop 1).dropLast) (cs.getD false))
  else if hasSub sepAmp query ∧ hasSub sepPipe query then
    .error .mixedBoolean
  else if hasSub sepAmp query then
    .ok (.andM ((splitOnSeq sepAmp query).map fun p => tokenize (stripWsBoth p)) (cs.getD false))
  else if hasSub sepPipe query then
    .ok (.orM ((splitOnSeq sepPipe query).map fun p => tokenize (stripWsBoth p)) (cs.getD false))
  else
    .ok (.singleM (tokenize query) (cs.getD false))

/-- The full query compilation path of `search`
(`bible_reader.py` lines 216-251). -/
def compileQuery (query0 : List Char) : Except QueryErr Compiled :=
  let p := stripFlags query0
  compileAfter p.1 p.2

/-- The Python >= 3.7 `re.escape` special-character set. -/
def isReSpecial (c : Char) : Bool :=
  c = '(' || c = ')' || c = '[' || c = ']' || c = '\x7b' || c = '\x7d' ||
  c = '?' || c = '*' || c = '+' || c = '-' || c = '|' || c = '^' || c = '$' ||
  c = '\\' || c = '.' || c = '&' || c = '~' || c = '#' ||
  c = ' ' || c = '\t' || c = '\n' || c = '\r' || c = '\x0b' || c = '\x0c'

/-- `re.escape`: backslash-escape every special character. -/
def reEscape (s : List Char) : List Char :=
  s.flatMap fun c => if isReSpecial c then ['\\', c] else [c]

/-- Regex text of one token fragment, exactly as `_token_to_regex`
builds it. -/
def tokPattern : Tok → List Char
  | .phrase s => reEscape s
  | .word s => '\\' :: 'b' :: (reEscape s ++ ['\\', 'b'])
  | .sub s => reEscape s

/-- The regex text `search` hands to `re.compile` for each matcher shape:
the lookahead conjunction plus `.*` for AND, the `|`-join for OR, the
verbatim interior for the regex form, the token fragment alone otherwise. -/
def patternString : Compiled → List Char
  | .regexM body _ => body
  | .andM toks _ =>
    (toks.flatMap fun t => ('(' :: '?' :: '=' :: '.' :: '*' :: tokPattern t) ++ [')']) ++ ['.', '*']
  | .orM toks _ => List.intercalate ['|'] (toks.map tokPattern)
  | .singleM t _ => tokPattern t

/-- Case-sensitivity flag of a compiled matcher. -/
def csOf : Compiled → Bool
  | .regexM _ cs => cs
  | .andM _ cs => cs
  | .orM _ cs => cs
  | .singleM _ cs => cs

/-- The (pattern text, case-sensitive) pair `bible_reader.py`'s `search`
passes to `re.compile`, or `none` when compilation is rejected. -/
def compileBRPat (q : List Char) : Option (List Char × Bool) :=
  match compileQuery q with
  | .ok m => some (patternString m, csOf m)
  | .error _ => none

/-- Case-flag stripping of the search branch of `streamlit_app.py`
(lines 239-245): unlike `bible_reader.py` the fall-through branch binds
`cs = False` directly. -/
def stripFlagsSL (query : List Char) : List Char × Bool :=
  if endsWith2 ':' 'c' query then (query.dropLast.dropLast, true)
  else if endsWith2 ':' 'i' query then (query.dropLast.dropLast, false)
  else (query, false)

/-- The (pattern text, case-sensitive) pair built by the search branch of
`streamlit_app.py` (lines 248-251): raw regex interior when in regex
form, else the whole query escaped. -/
def compileSL (query : List Char) : List Char × Bool :=
  let p := stripFlagsSL query
  if regexForm p.1 then ((p.1.drop 1).dropLast, p.2)
  else (reEscape p.1, p.2)

/-- The plain-single-token syntactic condition of claim C10: no leading
`"`, no leading `=`, and neither boolean separator. -/
def plainTok (q : List Char) : Bool :=
  !(q.head? = some '"') && !(q.head? = some '=') &&
    !hasSub sepAmp q && !hasSub sepPipe q

/-- Python `\b` at position `p` of `text`: exactly one of the neighbouring
positions holds a word character (positions outside the text count as
non-word). -/
def wordBoundary (text : List Char) (p : Nat) : Bool :=
  let bl := decide (p ≠ 0) && isWordCh (text.getD (p - 1) ' ')
  let br := isWordCh (text.getD p ' ')
  bl != br

/-- The token fragment produced by `_token_to_regex` matches `text`
starting exactly at position `k`.  Escaped literals (phrase / substring)
match their interior verbatim; a whole-word fragment additionally requires
`\b` on both sides.  (`re.escape` neutralises every metacharacter, so an
escaped literal's regex semantics is literal matching.) -/
def fragAt (t : Tok) (text : List Char) (k : Nat) : Bool :=
  match t with
  | .phrase s => litAt s text k
  | .sub s => litAt s text k
  | .word s => wordBoundary text k && litAt s text k && wordBoundary text (k + s.length)

/-- `re.search` of a single fragment: some start position in `0..len`
matches. -/
def findFrag (t : Tok) (text : List Char) : Bool :=
  (List.range (text.length + 1)).any fun k => fragAt t text k

/-- No newline among positions `i ≤ · < k` of `text`: the region a `.*`
must traverse (Python `.` does not match a newline without `re.DOTALL`). -/
def noNL (text : List Char) (i k : Nat) : Bool :=
  ((text.drop i).take (k - i)).all fun c => c ≠ '\n'

/-- `re.search` of the AND pattern `(?=.*f1)(?=.*f2)....*`: some start
position `i` satisfies every lookahead, each lookahead reaching its
fragment through a newline-free `.*` region; the trailing `.*` always
matches. -/
def andMatch (toks : List Tok) (text : List Char) : Bool :=
  (List.range (text.length + 1)).any fun i =>
    toks.all fun t =>
      (List.range (text.length + 1)).any fun k =>
        decide (i ≤ k) && noNL text i k && fragAt t text k

/-- Lower a token's literal for a case-insensitive pattern. -/
def foldTok (cs : Bool) : Tok → Tok
  | .phrase s => .phrase (foldCase cs s)
  | .word s => .word (foldCase cs s)
  | .sub s => .sub (foldCase cs s)

/-- `re.Pattern.search(text)` as a Boolean, for the pattern shapes
generated by `compileQuery`.  The verbatim regex form is interpreted by
the caller-supplied `oracle` (the code passes such bodies to `re`
uninterpreted, so their semantics is a parameter of the model).
Case-insensitive matching lowers both the pattern literals and the text. -/
def msearchO (oracle : List Char → Bool → List Char → Bool) (m : Compiled)
    (text : List Char) : Bool :=
  match m with
  | .regexM body cs => oracle body cs text
  | .singleM t cs => findFrag (foldTok cs t) (foldCase cs text)
  | .orM toks cs => toks.any fun t => findFrag (foldTok cs t) (foldCase cs text)
  | .andM toks cs => andMatch (toks.map (foldTok cs)) (foldCase cs text)

/-- A fixed, arbitrary instantiation of the raw-regex oracle, used to
state concrete facts about matchers that contain no regex form (the
oracle's value is never consulted for them). -/
def reStub : List Char → Bool → List Char → Bool := fun _ _ _ => false

/-- The hit collection of `search` (`bible_reader.py` line 254):
`[(r, t) for r, t in raw.items() if pattern.search(t)]`, the corpus as an
insertion-ordered key/text list. -/
def executeM (oracle : List Char → Bool → List Char → Bool) (m : Compiled)
    (corpus : List (List Char × List Char)) : List (List Char × List Char) :=
  corpus.filter fun e => msearchO oracle m e.2

/-- Hit collection at the (pattern text, flag) level, for comparing the
two duplicated search implementations: `interp` stands for the `re`
engine applied to a compiled pattern. -/
def executePat (p : List Char × Bool) (interp : List Char → Bool → List Char → Bool)
    (corpus : List (List Char × List Char)) : List (List Char × List Char) :=
  corpus.filter fun e => interp p.1 p.2 e.2

/-- A reference is well formed (the domain of the spec's round-trip
invariant): non-empty whitespace-canonical book (single spaces between
tokens, none at the ends), positive chapter and verse. -/
def WellFormedRef (r : Ref) : Prop :=
  r.book ≠ [] ∧ joinSpace (splitWs r.book) = r.book ∧ 1 ≤ r.chap ∧ 1 ≤ r.verse

instance (r : Ref) : Decidable (WellFormedRef r) := by
  unfold WellFormedRef; infer_instance

/-- A key is well formed when it is the canonical encoding of a
well-formed reference. -/
def WellFormedKey (k : List Char) : Prop :=
  ∃ r : Ref, WellFormedRef r ∧ encodeRef r = k

/-- The key classifications the build loop's `except ValueError` catches. -/
def isValueErr : KeyParse → Bool
  | .noColon => true
  | .badChap => true
  | .badVerse _ _ => true
  | _ => false

instance {ε α : Type} [DecidableEq ε] [DecidableEq α] : DecidableEq (Except ε α) := fun a b =>
  match a, b with
  | .ok x, .ok y =>
    if h : x = y then isTrue (by rw [h]) else isFalse (by intro hh; cases hh; exact h rfl)
  | .error x, .error y =>
    if h : x = y then isTrue (by rw [h]) else isFalse (by intro hh; cases hh; exact h rfl)
  | .ok _, .error _ => isFalse (by intro h; cases h)
  | .error _, .ok _ => isFalse (by intro h; cases h)

/-! ### Helper lemmas -/

theorem endsWith2_append (a b x y : Char) (q : List Char) :
    endsWith2 a b (q ++ [x, y]) = (decide (x = a) && decide (y = b)) := by
  unfold endsWith2
  rw [show (q ++ [x, y]).reverse = y :: x :: q.reverse by simp]

theorem dropLast2_append (x y : Char) (q : List Char) :
    (q ++ [x, y]).dropLast.dropLast = q := by
  rw [show q ++ [x, y] = (q ++ [x]) ++ [y] by simp]
  rw [List.dropLast_concat, List.dropLast_concat]

theorem compileAfter_none (q : List Char) :
    compileAfter q none = compileAfter q (some false) := by
  simp only [compileAfter, Option.getD_none, Option.getD_some]

theorem endsWith2_of_all_nonmatch (a b : Char) (q : List Char)
    (hq : ∀ c ∈ q, c ≠ a) : endsWith2 a b q = false := by
  unfold endsWith2
  cases hrev : q.reverse with
  | nil => rfl
  | cons c2 t =>
    cases t with
    | nil => rfl
    | cons c1 r =>
      have hc1 : c1 ∈ q := by
        rw [← List.mem_reverse, hrev]; simp
      simp [hq c1 hc1]

/-! ### C9: execute ordering and totality -/

/-- C9.  For every matcher and corpus, `execute` (the hit comprehension of
`search`, line 254) returns the hits in the corpus's original declaration
order (the hit list is a sublist of the corpus, containing exactly the
entries whose text matches), and returns the empty list — never an
error — for an empty corpus or a matcher matching nothing. -/
theorem execute_ordered (oracle : List Char → Bool → List Char → Bool)
    (m : Compiled) (corpus : List (List Char × List Char)) :
    executeM oracle m [] = [] ∧
    (executeM oracle m corpus).Sublist corpus ∧
    (∀ e, e ∈ executeM oracle m corpus ↔ e ∈ corpus ∧ msearchO oracle m e.2 = true) ∧
    ((∀ e ∈ corpus, msearchO oracle m e.2 = false) → executeM oracle m corpus = []) := by
  refine ⟨rfl, List.filter_sublist _, fun e => List.mem_filter, fun h => ?_⟩
  unfold executeM
  rw [List.filter_eq_nil_iff]
  intro e he
  simp [h e he]

theorem execute_ordered_witness :
    (∀ e ∈ [(("Gen 1:1".toList : List Char), ("In the beginning".toList : List Char))],
      msearchO reStub (Compiled.singleM (Tok.sub ['x']) false) e.2 = false) ∧
    executeM reStub (Compiled.singleM (Tok.sub ['x']) false)
      [("Gen 1:1".toList, "In the beginning".toList)] = [] :=
  ⟨by decide, (execute_ordered reStub (Compiled.singleM (Tok.sub ['x']) false)
      [("Gen 1:1".toList, "In the beginning".toList)]).2.2.2 (by decide)⟩

/-! ### C6: case flags -/

theorem csOf_compileAfter (q : List Char) (b : Bool) (m : Compiled)
    (h : compileAfter q (some b) = .ok m) : csOf m = b := by
  unfold compileAfter at h
  split_ifs at h <;> injection h with h' <;> (subst h'; rfl)

/-- Claim C6.  A trailing `:c` is stripped and forces a case-sensitive
matcher, a trailing `:i` is stripped and forces a case-insensitive
matcher, and a query with neither suffix is classified unchanged with the
default insensitive flag; in each case the stripped remainder is what the
rest of the classifier sees (the flag strip happens first). -/
theorem case_flags (q : List Char) :
    (compileQuery (q ++ [':', 'c']) = compileAfter q (some true) ∧
      ∀ m, compileQuery (q ++ [':', 'c']) = .ok m → csOf m = true) ∧
    (compileQuery (q ++ [':', 'i']) = compileAfter q (some false) ∧
      ∀ m, compileQuery (q ++ [':', 'i']) = .ok m → csOf m = false) ∧
    (endsWith2 ':' 'c' q = false → endsWith2 ':' 'i' q = false →
      compileQuery q = compileAfter q (some false) ∧
      ∀ m, compileQuery q = .ok m → csOf m = false) := by
  have e1 : compileQuery (q ++ [':', 'c']) = compileAfter q (some true) := by
    unfold compileQuery stripFlags
    simp [endsWith2_append, dropLast2_append]
  have e2 : compileQuery (q ++ [':', 'i']) = compileAfter q (some false) := by
    unfold compileQuery stripFlags
    simp [endsWith2_append, dropLast2_append]
  refine ⟨⟨e1, fun m hm => csOf_compileAfter q true m (e1 ▸ hm)⟩,
    ⟨e2, fun m hm => csOf_compileAfter q false m (e2 ▸ hm)⟩, fun h1 h2 => ?_⟩
  have e3 : compileQuery q = compileAfter q (some false) := by
    unfold compileQuery stripFlags
    simp only [h1, h2, Bool.false_eq_true, if_false]
    exact compileAfter_none q
  exact ⟨e3, fun m hm => csOf_compileAfter q false m (e3 ▸ hm)⟩

theorem case_flags_witness :
    compileQuery ("love".toList ++ [':', 'c']) = compileAfter ("love".toList) (some true) ∧
    csOf (.singleM (.sub "love".toList) true) = true ∧
    compileQuery ("love".toList) = compileAfter ("love".toList) (some false) :=
  ⟨(case_flags ("love".toList)).1.1,
   (case_flags ("love".toList)).1.2 (.singleM (.sub "love".toList) true) (by decide),
   ((case_flags ("love".toList)).2.2 (by decide) (by decide)).1⟩

/-! ### C3: mixed boolean operators -/

/-- C3 counterexample.  A regex-form query containing both `" & "` and
`" | "` does not fail with `MixedBooleanOperators`: the regex check runs
first, so it compiles to a regex matcher. -/
theorem mixed_ops_regex_escape :
    hasSub sepAmp ("/a & b | c/".toList) = true ∧
    hasSub sepPipe ("/a & b | c/".toList) = true ∧
    compileQuery ("/a & b | c/".toList) = .ok (.regexM ("a & b | c".toList) false) := by
  decide

/-- C3 amended.  Compiling a query that, after case-flag stripping, is not
in regex form and contains both `" & "` and `" | "` always fails with
`MixedBooleanOperators`, producing no matcher; a regex-form query escapes
the check. -/
theorem mixed_ops_rejected (q : List Char)
    (h1 : regexForm (stripFlags q).1 = false)
    (h2 : hasSub sepAmp (stripFlags q).1 = true)
    (h3 : hasSub sepPipe (stripFlags q).1 = true) :
    compileQuery q = .error .mixedBoolean := by
  unfold compileQuery compileAfter
  simp [h1, h2, h3]

theorem mixed_ops_rejected_witness :
    compileQuery ("a & b | c".toList) = .error .mixedBoolean :=
  mixed_ops_rejected ("a & b | c".toList) (by decide) (by decide) (by decide)

/-! ### C2: empty and whitespace-only queries -/

theorem regexForm_false_of_head (q : List Char) (c : Char) (hc : q.head? = some c)
    (h : c ≠ '/') : regexForm q = false := by
  unfold regexForm
  rw [hc]
  simp [h]

/-- C2 counterexample.  The empty query compiles to a substring matcher
(no `EmptyQuery` failure exists in the code) and that matcher matches an
arbitrary verse text. -/
theorem empty_query_matches_everything :
    compileQuery [] = .ok (.singleM (.sub []) false) ∧
    msearchO reStub (.singleM (.sub []) false) ("For God so loved the world".toList) = true := by
  decide

/-- C2 amended.  There is no `EmptyQuery` rejection: the empty query
compiles to the empty-literal substring matcher, whose pattern matches
every text; more generally every whitespace-only query compiles to a
literal substring matcher of itself. -/
theorem empty_query_compiles :
    compileQuery [] = .ok (.singleM (.sub []) false) ∧
    (∀ text : List Char, msearchO reStub (.singleM (.sub []) false) text = true) ∧
    (∀ q : List Char, (∀ c ∈ q, isSpaceCh c = true) →
      compileQuery q = .ok (.singleM (.sub q) false)) := by
  refine ⟨by decide, ?_, ?_⟩
  · intro text
    show findFrag (foldTok false (.sub [])) (foldCase false text) = true
    have hft : foldTok false (.sub []) = .sub [] := by simp [foldTok, foldCase]
    rw [hft]
    unfold findFrag
    rw [List.any_eq_true]
    exact ⟨0, List.mem_range.mpr (by omega), by simp [fragAt, litAt, litPre]⟩
  · intro q hq
    have hws : ∀ (b : Char), endsWith2 ':' b q = false := fun b =>
      endsWith2_of_all_nonmatch ':' b q fun c hc => by
        intro h; subst h; exact absurd (hq ':' hc) (by decide)
    unfold compileQuery stripFlags
    simp only [hws, Bool.false_eq_true, if_false]
    have hr : regexForm q = false := by
      cases q with
      | nil => decide
      | cons c rest =>
        refine regexForm_false_of_head _ c rfl ?_
        intro h; subst h; exact absurd (hq '/' (by simp)) (by decide)
    have hamp : hasSub sepAmp q = false := by
      cases h : hasSub sepAmp q
      · rfl
      · have := hasSub_mem sepAmp q h '&' (by decide)
        exact absurd (hq '&' this) (by decide)
    have hpipe : hasSub sepPipe q = false := by
      cases h : hasSub sepPipe q
      · rfl
      · have := hasSub_mem sepPipe q h '|' (by decide)
        exact absurd (hq '|' this) (by decide)
    have ht : tokenize q = .sub q := by
      unfold tokenize
      cases q with
      | nil => decide
      | cons c rest =>
        have hcq : c ≠ '"' := by
          intro h; subst h; exact absurd (hq '"' (by simp)) (by decide)
        have hce : c ≠ '=' := by
          intro h; subst h; exact absurd (hq '=' (by simp)) (by decide)
        simp [hcq, hce]
    unfold compileAfter
    simp [hr, hamp, hpipe, ht]

theorem empty_query_compiles_witness :
    compileQuery (" ".toList) = .ok (.singleM (.sub (" ".toList)) false) :=
  empty_query_compiles.2.2 (" ".toList) (by decide)

/-! ### C8: whole-word queries -/

/-- C8.  A single-token query prefixed with `=` (no boolean separators, no
case flag) compiles to a whole-word matcher whose regex text is the
escaped remainder wrapped in `\b` on both sides; concretely `=love`
matches texts with the standalone word "love" (also right before
punctuation), and does not match texts containing "love" only inside a
longer word. -/
theorem whole_word_query :
    (∀ s : List Char,
      endsWith2 ':' 'c' ('=' :: s) = false → endsWith2 ':' 'i' ('=' :: s) = false →
      hasSub sepAmp ('=' :: s) = false → hasSub sepPipe ('=' :: s) = false →
      compileQuery ('=' :: s) = .ok (.singleM (.word s) false) ∧
      patternString (.singleM (.word s) false) = '\\' :: 'b' :: (reEscape s ++ ['\\', 'b'])) ∧
    msearchO reStub (.singleM (.word "love".toList) false) ("love".toList) = true ∧
    msearchO reStub (.singleM (.word "love".toList) false) ("Love, joy.".toList) = true ∧
    msearchO reStub (.singleM (.word "love".toList) false) ("we love God".toList) = true ∧
    msearchO reStub (.singleM (.word "love".toList) false) ("loved".toList) = false ∧
    msearchO reStub (.singleM (.word "love".toList) false) ("lovely".toList) = false ∧
    msearchO reStub (.singleM (.word "love".toList) false) ("beloved".toList) = false := by
  refine ⟨?_, by decide, by decide, by decide, by decide, by decide, by decide⟩
  intro s h1 h2 h3 h4
  constructor
  · unfold compileQuery stripFlags
    simp only [h1, h2, Bool.false_eq_true, if_false]
    unfold compileAfter
    have hr : regexForm ('=' :: s) = false :=
      regexForm_false_of_head _ '=' rfl (by decide)
    have ht : tokenize ('=' :: s) = .word s := by
      unfold tokenize
      simp
    simp [hr, h3, h4, ht]
  · rfl

theorem whole_word_query_witness :
    compileQuery ("=love".toList) = .ok (.singleM (.word "love".toList) false) :=
  (whole_word_query.1 ("love".toList) (by decide) (by decide) (by decide) (by decide)).1

/-! ### C7: AND queries -/

theorem getDefault_eq_or_mem {α : Type} [DecidableEq α] {β : Type}
    (m : List (α × β)) (k : α) (d : β) :
    getDefault m k d = d ∨ (k, getDefault m k d) ∈ m := by
  induction m with
  | nil => exact Or.inl rfl
  | cons p rest ih =>
    obtain ⟨k0, v0⟩ := p
    by_cases h : k0 = k
    · subst h
      right
      simp [getDefault]
    · rcases ih with h' | h' <;> simp [getDefault, h] at h' ⊢
      · exact Or.inl h'
      · right; right; exact h'

theorem lowerCh_ne_newline (c : Char) (h : c ≠ '\n') : lowerCh c ≠ '\n' := by
  unfold lowerCh
  rcases getDefault_eq_or_mem lcMap c c with h' | h'
  · rw [h']; exact h
  · intro hn
    rw [hn] at h'
    have hall : ∀ p ∈ lcMap, p.2 ≠ '\n' := by decide
    exact hall _ h' rfl

theorem foldCase_no_newline (cs : Bool) (text : List Char)
    (h : ∀ c ∈ text, c ≠ '\n') : ∀ c ∈ foldCase cs text, c ≠ '\n' := by
  intro c hc
  cases cs with
  | true =>
    rw [show foldCase true text = text from rfl] at hc
    exact h c hc
  | false =>
    rw [show foldCase false text = text.map lowerCh from rfl] at hc
    obtain ⟨c0, hc0, rfl⟩ := List.mem_map.mp hc
    exact lowerCh_ne_newline c0 (h c0 hc0)

/-- On a newline-free text the AND pattern's search succeeds exactly when
every fragment is findable somewhere (order-independent); the lookaheads'
`.*` regions never meet a newline. -/
theorem andMatch_iff (toks : List Tok) (text : List Char)
    (h : ∀ c ∈ text, c ≠ '\n') :
    andMatch toks text = true ↔ ∀ t ∈ toks, findFrag t text = true := by
  unfold andMatch findFrag
  constructor
  · intro hm t ht
    obtain ⟨i, _, hall⟩ := List.any_eq_true.mp hm
    obtain ⟨k, hk, hcond⟩ := List.any_eq_true.mp ((List.all_eq_true.mp hall) t ht)
    rw [List.any_eq_true]
    simp only [Bool.and_eq_true] at hcond
    exact ⟨k, hk, hcond.2⟩
  · intro hf
    rw [List.any_eq_true]
    refine ⟨0, List.mem_range.mpr (by omega), ?_⟩
    rw [List.all_eq_true]
    intro t ht
    obtain ⟨k, hk, hfr⟩ := List.any_eq_true.mp (hf t ht)
    rw [List.any_eq_true]
    refine ⟨k, hk, ?_⟩
    simp only [Bool.and_eq_true]
    refine ⟨⟨by simp, ?_⟩, hfr⟩
    unfold noNL
    rw [List.all_eq_true]
    intro c hc
    have hmem : c ∈ text := by
      have := List.take_subset (k - 0) (text.drop 0)
      rw [List.drop_zero] at this
      exact this hc
    simpa using h c hmem

/-- C7 counterexample.  `"love & joy"` compiles to the AND matcher of the
two substrings, yet the text `"love\njoy"` — which contains both
fragments — is not matched, because the `.*` inside a lookahead cannot
cross the newline. -/
theorem and_query_newline_gap :
    compileQuery ("love & joy".toList) =
      .ok (.andM [.sub "love".toList, .sub "joy".toList] false) ∧
    msearchO reStub (.andM [.sub "love".toList, .sub "joy".toList] false)
      ("love\njoy".toList) = false ∧
    msearchO reStub (.singleM (.sub "love".toList) false) ("love\njoy".toList) = true ∧
    msearchO reStub (.singleM (.sub "joy".toList) false) ("love\njoy".toList) = true := by
  decide

/-- C7 amended.  For a compiled AND matcher and a newline-free text, the
matcher matches iff every token's fragment matches somewhere in the text,
independent of order; on texts with newlines the conjunction of
`(?=.*frag)` lookaheads additionally requires all fragments to be
reachable without crossing a newline. -/
theorem and_query_conjunction (oracle : List Char → Bool → List Char → Bool)
    (q : List Char) (toks : List Tok) (cs : Bool) (text : List Char)
    (_hc : compileQuery q = .ok (.andM toks cs))
    (hn : ∀ c ∈ text, c ≠ '\n') :
    msearchO oracle (.andM toks cs) text = true ↔
      ∀ t ∈ toks, msearchO oracle (.singleM t cs) text = true := by
  have hn' : ∀ c ∈ foldCase cs text, c ≠ '\n' := foldCase_no_newline cs text hn
  show andMatch (toks.map (foldTok cs)) (foldCase cs text) = true ↔ _
  rw [andMatch_iff _ _ hn']
  constructor
  · intro h t ht
    exact h (foldTok cs t) (List.mem_map_of_mem _ ht)
  · intro h t' ht'
    obtain ⟨t, ht, rfl⟩ := List.mem_map.mp ht'
    exact h t ht

theorem and_query_conjunction_witness :
    msearchO reStub (.andM [.sub "love".toList, .sub "joy".toList] false)
        ("joy of love".toList) = true ↔
      ∀ t ∈ [Tok.sub "love".toList, Tok.sub "joy".toList],
        msearchO reStub (.singleM t false) ("joy of love".toList) = true :=
  and_query_conjunction reStub ("love & joy".toList)
    [.sub "love".toList, .sub "joy".toList] false ("joy of love".toList)
    (by decide) (by decide)

/-! ### C1: malformed corpus keys, build skipping and search -/

theorem flatMap_setKey {α γ : Type} [DecidableEq α] {β : Type}
    (m : List (α × β)) (k : α) (X : β) (G : α → β → List γ) (d : β)
    (hX : G k X = G k (getDefault m k d)) (hd : G k d = []) :
    (setKey m k X).flatMap (fun p => G p.1 p.2) = m.flatMap (fun p => G p.1 p.2) := by
  induction m with
  | nil =>
    simp only [setKey, List.flatMap_cons, List.flatMap_nil, List.append_nil]
    rw [hX]
    simpa [getDefault] using hd
  | cons p rest ih =>
    obtain ⟨k0, v0⟩ := p
    by_cases h : k0 = k
    · subst h
      rw [show setKey ((k0, v0) :: rest) k0 X = (k0, X) :: rest from by simp [setKey]]
      simp only [List.flatMap_cons]
      rw [hX]
      simp [getDefault]
    · simp only [setKey, if_neg h, List.flatMap_cons]
      rw [ih (by rwa [show getDefault ((k0, v0) :: rest) k d = getDefault rest k d from by
        simp [getDefault, h]] at hX)]

/-- The `defaultdict` accesses performed before a failing `int(verse)`
create at most empty book/chapter entries: the flattened verse bindings
of the index are unchanged. -/
theorem verseBindings_touch (B : Bible) (book : List Char) (chap : Int) :
    verseBindings (touch B book chap) = verseBindings B := by
  unfold verseBindings touch
  refine flatMap_setKey B book _ (fun b cm => cm.flatMap fun cvm =>
    cvm.2.map fun vt => (b, cvm.1, vt.1, vt.2)) [] ?_ rfl
  exact flatMap_setKey (getDefault B book []) chap _
    (fun c vm => vm.map fun vt => (book, c, vt.1, vt.2)) [] rfl rfl

/-- C1 counterexample.  The key `"BadKey"` fails decoding (no colon), the
build skips it with a diagnostic and an unchanged index — yet executing
the matcher compiled from `"love"` over the corpus returns a hit for the
skipped entry, because `search` iterates the raw mapping. -/
theorem skipped_entry_still_hit :
    classifyKey ("BadKey".toList) = .noColon ∧
    buildBible [("BadKey".toList, "love".toList)] = some ([], ["BadKey".toList]) ∧
    compileQuery ("love".toList) = .ok (.singleM (.sub "love".toList) false) ∧
    executeM reStub (.singleM (.sub "love".toList) false)
      [("BadKey".toList, "love".toList)] = [("BadKey".toList, "love".toList)] := by
  decide

/-- C1 amended.  An entry whose key fails decoding with a `ValueError` is
skipped by the build — a diagnostic is recorded, no verse binding is
added, and the build continues with the remaining entries — but `execute`
iterates the raw mapping, not the built index, so a matcher still returns
a hit for the skipped entry whenever it matches that entry's text: search
does not behave as if the entry were never present. -/
theorem build_skips_but_search_sees (k t : List Char)
    (rest : List (List Char × List Char))
    (h : isValueErr (classifyKey k) = true) :
    (∀ B : Bible, ∃ B' : Bible, buildStep B k t = some (B', true) ∧
      verseBindings B' = verseBindings B ∧
      buildAux B ((k, t) :: rest) = (buildAux B' rest).map fun p => (p.1, k :: p.2)) ∧
    (∀ (oracle : List Char → Bool → List Char → Bool) (m : Compiled),
      executeM oracle m ((k, t) :: rest) =
        if msearchO oracle m t then (k, t) :: executeM oracle m rest
        else executeM oracle m rest) := by
  constructor
  · intro B
    cases hk : classifyKey k with
    | noColon =>
      exact ⟨B, by simp [buildStep, hk], rfl, by simp [buildAux, buildStep, hk]⟩
    | badChap =>
      exact ⟨B, by simp [buildStep, hk], rfl, by simp [buildAux, buildStep, hk]⟩
    | badVerse book chap =>
      exact ⟨touch B book chap, by simp [buildStep, hk], verseBindings_touch B book chap,
        by simp [buildAux, buildStep, hk]⟩
    | ixErr => rw [hk] at h; simp [isValueErr] at h
    | okParse r => rw [hk] at h; simp [isValueErr] at h
  · intro oracle m
    exact List.filter_cons

theorem build_skips_but_search_sees_witness :
    executeM reStub (.singleM (.sub "love".toList) false)
        [("NoColonKey".toList, "God is love".toList)] =
      (if msearchO reStub (.singleM (.sub "love".toList) false) ("God is love".toList)
        then [("NoColonKey".toList, "God is love".toList)] else []) :=
  (build_skips_but_search_sees ("NoColonKey".toList) ("God is love".toList) []
    (by decide)).2 reStub (.singleM (.sub "love".toList) false)

/-! ### C10: agreement of the two duplicated search implementations -/

theorem stripFlags_agree (q : List Char) :
    stripFlagsSL q = ((stripFlags q).1, (stripFlags q).2.getD false) := by
  unfold stripFlags stripFlagsSL
  by_cases h1 : endsWith2 ':' 'c' q = true
  · simp [h1]
  · by_cases h2 : endsWith2 ':' 'i' q = true <;>
      simp [h1, h2]

/-- C10.  For every query whose flag-stripped form is in regex form or is
a plain single token (no leading `"` or `=`, no `" & "`, no `" | "`), the
compilation path of `bible_reader.py`'s `search` and the one in
`streamlit_app.py`'s search branch produce the same pattern text and the
same case-sensitivity flag — hence, for any regex engine interpretation,
the same hit list over the same corpus. -/
theorem duplicated_search_agree (q : List Char)
    (h : regexForm (stripFlagsSL q).1 = true ∨ plainTok (stripFlagsSL q).1 = true) :
    compileBRPat q = some (compileSL q) ∧
    ∀ (interp : List Char → Bool → List Char → Bool)
      (corpus : List (List Char × List Char)),
      (compileBRPat q).map (fun p => executePat p interp corpus) =
        some (executePat (compileSL q) interp corpus) := by
  have hmain : compileBRPat q = some (compileSL q) := by
    unfold compileBRPat compileQuery compileSL
    rw [stripFlags_agree q] at h ⊢
    rcases h with hr | hp
    · simp only at hr
      unfold compileAfter
      simp [hr, patternString, csOf]
    · simp only at hp
      unfold plainTok at hp
      simp only [Bool.and_eq_true, Bool.not_eq_true', decide_eq_false_iff_not] at hp
      obtain ⟨⟨⟨hq1, hq2⟩, hamp⟩, hpipe⟩ := hp
      by_cases hr : regexForm (stripFlags q).1 = true
      · unfold compileAfter
        simp [hr, patternString, csOf]
      · have hr' : regexForm (stripFlags q).1 = false := by
          revert hr; cases regexForm (stripFlags q).1 <;> simp
        have ht : tokenize (stripFlags q).1 = .sub (stripFlags q).1 := by
          unfold tokenize
          simp [hq1, hq2]
        unfold compileAfter
        simp [hr', hamp, hpipe, ht, patternString, tokPattern, csOf]
  exact ⟨hmain, fun interp corpus => by rw [hmain]; rfl⟩

theorem duplicated_search_agree_witness :
    compileBRPat ("love:c".toList) = some (compileSL ("love:c".toList)) :=
  (duplicated_search_agree ("love:c".toList) (Or.inr (by decide))).1

/-! ### C4: decode behaviour on arbitrary keys -/

/-- C4 counterexample.  `decode` succeeds with an *empty* book when only
one whitespace token precedes the colon (the claim says it must fail),
and accepts non-positive chapters and verses (Python `int` parses signs
and zero). -/
theorem decode_accepts_degenerate_keys :
    decodeKey ("3:16".toList) = .ok ⟨[], 3, 16⟩ ∧
    decodeKey ("Gen 0:0".toList) = .ok ⟨"Gen".toList, 0, 0⟩ ∧
    decodeKey ("Gen 3:-5".toList) = .ok ⟨"Gen".toList, 3, -5⟩ := by
  decide

/-- C4 amended.  `decode` splits the key on its last `:`, failing with a
(caught) `ValueError` when no `:` exists; the pre-colon text is split on
whitespace, its last token must parse as a Python int chapter (possibly
zero or negative), the preceding tokens rejoined with single spaces form
the book (empty when exactly one token remains), and the trailing segment
must parse as a Python int verse; a pre-colon part with no whitespace
token raises an uncaught `IndexError` instead of a clean failure. -/
theorem decode_characterization :
    (∀ key : List Char, rsplitColon key = none → decodeKey key = .error .valueError) ∧
    (∀ key bc vs, rsplitColon key = some (bc, vs) → splitWs bc = [] →
      decodeKey key = .error .indexError) ∧
    (∀ (key : List Char) (r : Ref), decodeKey key = .ok r ↔
      ∃ bc vs lastTok, rsplitColon key = some (bc, vs) ∧
        (splitWs bc).getLast? = some lastTok ∧
        pyInt lastTok = some r.chap ∧
        pyInt vs = some r.verse ∧
        r.book = joinSpace (splitWs bc).dropLast) := by
  refine ⟨?_, ?_, ?_⟩
  · intro key h
    unfold decodeKey classifyKey
    rw [h]
  · intro key bc vs h hsw
    unfold decodeKey classifyKey
    rw [h]
    simp [hsw]
  · intro key r
    constructor
    · intro h
      unfold decodeKey classifyKey at h
      cases hrs : rsplitColon key with
      | none => rw [hrs] at h; cases h
      | some p =>
        obtain ⟨bc, vs⟩ := p
        rw [hrs] at h
        cases hgl : (splitWs bc).getLast? with
        | none => simp only [hgl] at h; cases h
        | some lastTok =>
          simp only [hgl] at h
          cases hpc : pyInt lastTok with
          | none => simp only [hpc] at h; cases h
          | some chap =>
            simp only [hpc] at h
            cases hpv : pyInt vs with
            | none => simp only [hpv] at h; cases h
            | some v =>
              simp only [hpv, Except.ok.injEq] at h
              subst h
              exact ⟨bc, vs, lastTok, rfl, hgl, hpc, hpv, rfl⟩
    · rintro ⟨bc, vs, lastTok, hrs, hgl, hpc, hpv, hbook⟩
      unfold decodeKey classifyKey
      rw [hrs]
      simp only [hgl, hpc, hpv]
      obtain ⟨rb, rc, rv⟩ := r
      simp only at hpc hpv hbook ⊢
      rw [hbook]

theorem decode_characterization_witness :
    decodeKey ("BadKey".toList) = .error .valueError ∧
    decodeKey (":16".toList) = .error .indexError ∧
    decodeKey ("Gen 3:16".toList) = .ok ⟨"Gen".toList, 3, 16⟩ :=
  ⟨decode_characterization.1 ("BadKey".toList) (by decide),
   decode_characterization.2.1 (":16".toList) [] ("16".toList) (by decide) (by decide),
   (decode_characterization.2.2 ("Gen 3:16".toList) ⟨"Gen".toList, 3, 16⟩).mpr
     ⟨"Gen 3".toList, "16".toList, "3".toList,
       by decide, by decide, by decide, by decide, by decide⟩⟩

/-! ### C5: round-trip lemmas for decimal rendering and parsing -/

theorem natToCharsF_fuel : ∀ (fuel fuel' n : Nat), n ≤ fuel → n ≤ fuel' →
    natToCharsF fuel n = natToCharsF fuel' n := by
  intro fuel
  induction fuel with
  | zero =>
    intro fuel' n h h'
    have hn : n = 0 := Nat.le_zero.mp h
    subst hn
    cases fuel' with
    | zero => rfl
    | succ f' => simp [natToCharsF]
  | succ f ih =>
    intro fuel' n h h'
    cases fuel' with
    | zero =>
      have hn : n = 0 := Nat.le_zero.mp h'
      subst hn
      simp [natToCharsF]
    | succ f' =>
      show natToCharsF (f + 1) n = natToCharsF (f' + 1) n
      by_cases h10 : n < 10
      · simp [natToCharsF, h10]
      · have hdiv : n / 10 < n := Nat.div_lt_self (by omega) (by omega)
        simp only [natToCharsF, if_neg h10]
        rw [ih f' (n / 10) (by omega) (by omega)]

theorem natToChars_small (n : Nat) (h : n < 10) :
    natToChars n = [Char.ofNat (48 + n)] := by
  unfold natToChars
  cases n with
  | zero => simp [natToCharsF]
  | succ m => simp [natToCharsF, h]

theorem natToChars_step (n : Nat) (h : 10 ≤ n) :
    natToChars n = natToChars (n / 10) ++ [Char.ofNat (48 + n % 10)] := by
  unfold natToChars
  obtain ⟨m, rfl⟩ : ∃ m, n = m + 1 := ⟨n - 1, by omega⟩
  show natToCharsF (m + 1) (m + 1) = _
  simp only [natToCharsF, if_neg (by omega : ¬ m + 1 < 10)]
  rw [natToCharsF_fuel m ((m + 1) / 10) ((m + 1) / 10)
    (by omega) (le_refl _)]

theorem digit_char_facts : ∀ m, m < 10 →
    isDigitCh (Char.ofNat (48 + m)) = true ∧ (Char.ofNat (48 + m)).toNat = 48 + m := by
  decide

theorem natToChars_digits : ∀ n, ∀ c ∈ natToChars n, isDigitCh c = true := by
  intro n
  induction n using Nat.strong_induction_on with
  | _ n ih =>
    intro c hc
    by_cases h10 : n < 10
    · rw [natToChars_small n h10] at hc
      rw [List.mem_singleton.mp hc]
      exact (digit_char_facts n h10).1
    · rw [natToChars_step n (by omega)] at hc
      rcases List.mem_append.mp hc with h' | h'
      · exact ih (n / 10) (Nat.div_lt_self (by omega) (by omega)) c h'
      · rw [List.mem_singleton.mp h']
        exact (digit_char_facts (n % 10) (Nat.mod_lt _ (by omega))).1

theorem natToChars_ne_nil (n : Nat) : natToChars n ≠ [] := by
  by_cases h10 : n < 10
  · rw [natToChars_small n h10]; simp
  · rw [natToChars_step n (by omega)]; simp

theorem natToChars_foldl : ∀ n acc,
    (natToChars n).foldl foldDigit acc = acc * 10 ^ (natToChars n).length + n := by
  intro n
  induction n using Nat.strong_induction_on with
  | _ n ih =>
    intro acc
    by_cases h10 : n < 10
    · rw [natToChars_small n h10]
      simp only [List.foldl_cons, List.foldl_nil, List.length_cons, List.length_nil]
      unfold foldDigit
      rw [(digit_char_facts n h10).2]
      simp only [Nat.zero_add, Nat.pow_one]
      omega
    · rw [natToChars_step n (by omega)]
      rw [List.foldl_append]
      rw [ih (n / 10) (Nat.div_lt_self (by omega) (by omega)) acc]
      simp only [List.foldl_cons, List.foldl_nil, List.length_append, List.length_cons,
        List.length_nil]
      unfold foldDigit
      rw [(digit_char_facts (n % 10) (Nat.mod_lt _ (by omega))).2]
      have hmod := Nat.div_add_mod n 10
      have hpow : 10 ^ ((natToChars (n / 10)).length + (0 + 1)) =
          10 ^ (natToChars (n / 10)).length * 10 := by
        rw [Nat.zero_add, Nat.pow_succ]
      rw [hpow]
      ring_nf
      omega

theorem parseUDGo_digits : ∀ (ds : List Char) (acc : Nat),
    (∀ c ∈ ds, isDigitCh c = true) →
    parseUDGo acc ds = some (ds.foldl foldDigit acc) := by
  intro ds
  induction ds with
  | nil => intro acc _; rfl
  | cons c rest ih =>
    intro acc h
    have hc : isDigitCh c = true := h c (List.mem_cons_self c rest)
    have hne : c ≠ '_' := by
      intro e; subst e; exact absurd hc (by decide)
    have hdv : digitVal c = some (c.toNat - 48) := by
      unfold digitVal
      rw [if_pos (of_decide_eq_true hc)]
    unfold parseUDGo
    rw [if_neg hne, hdv]
    show parseUDGo (acc * 10 + (c.toNat - 48)) rest = some (List.foldl foldDigit acc (c :: rest))
    rw [ih (acc * 10 + (c.toNat - 48)) fun c' hc' => h c' (List.mem_cons_of_mem c hc')]
    rfl

theorem parseUD_digits (ds : List Char) (h : ∀ c ∈ ds, isDigitCh c = true)
    (hne : ds ≠ []) : parseUD ds = some (ds.foldl foldDigit 0) := by
  cases ds with
  | nil => exact absurd rfl hne
  | cons c rest =>
    have hc : isDigitCh c = true := h c (List.mem_cons_self c rest)
    have hdv : digitVal c = some (c.toNat - 48) := by
      unfold digitVal
      rw [if_pos (of_decide_eq_true hc)]
    show (match digitVal c with
      | none => none
      | some d => parseUDGo d rest) = some (List.foldl foldDigit 0 (c :: rest))
    rw [hdv]
    show parseUDGo (c.toNat - 48) rest = _
    rw [parseUDGo_digits rest (c.toNat - 48) fun c' hc' => h c' (List.mem_cons_of_mem c hc')]
    have hz : foldDigit 0 c = c.toNat - 48 := by unfold foldDigit; omega
    rw [List.foldl_cons, hz]

theorem isSpaceCh_false_of_digit (c : Char) (h : isDigitCh c = true) :
    isSpaceCh c = false := by
  cases hs : isSpaceCh c
  · rfl
  · exfalso
    simp only [isSpaceCh, Bool.or_eq_true, decide_eq_true_eq] at hs
    rcases hs with ((((e | e) | e) | e) | e) | e <;> (subst e; exact absurd h (by decide))

theorem stripWsBoth_id (s : List Char) (h : ∀ c ∈ s, isSpaceCh c = false) :
    stripWsBoth s = s := by
  unfold stripWsBoth
  have h1 : s.dropWhile isSpaceCh = s := by
    cases s with
    | nil => rfl
    | cons c rest => simp [List.dropWhile_cons, h c (List.mem_cons_self c rest)]
  rw [h1]
  have h2 : s.reverse.dropWhile isSpaceCh = s.reverse := by
    cases hrev : s.reverse with
    | nil => rfl
    | cons c rest =>
      have hc : c ∈ s := by rw [← List.mem_reverse, hrev]; simp
      simp [List.dropWhile_cons, h c hc]
  rw [h2, List.reverse_reverse]

theorem pyInt_natToChars (n : Nat) : pyInt (natToChars n) = some (Int.ofNat n) := by
  have hd := natToChars_digits n
  have hs : stripWsBoth (natToChars n) = natToChars n :=
    stripWsBoth_id _ fun c hc => isSpaceCh_false_of_digit c (hd c hc)
  unfold pyInt
  rw [hs]
  cases hn : natToChars n with
  | nil => exact absurd hn (natToChars_ne_nil n)
  | cons c rest =>
    have hc : isDigitCh c = true := by
      apply hd; rw [hn]; simp
    have hplus : c ≠ '+' := by intro e; subst e; exact absurd hc (by decide)
    have hminus : c ≠ '-' := by intro e; subst e; exact absurd hc (by decide)
    show (if c = '+' then (parseUD rest).map Int.ofNat
      else if c = '-' then (parseUD rest).map (fun n => -(Int.ofNat n))
      else (parseUD (c :: rest)).map Int.ofNat) = some (Int.ofNat n)
    rw [if_neg hplus, if_neg hminus]
    rw [show (c :: rest) = natToChars n from hn.symm]
    rw [parseUD_digits _ hd (natToChars_ne_nil n)]
    rw [show (natToChars n).foldl foldDigit 0 = 0 * 10 ^ (natToChars n).length + n from
      natToChars_foldl n 0]
    simp

theorem pyInt_intToChars (i : Int) : pyInt (intToChars i) = some i := by
  unfold intToChars
  by_cases hi : i < 0
  · rw [if_pos hi]
    have hd := natToChars_digits (-i).toNat
    have hs : stripWsBoth ('-' :: natToChars (-i).toNat) = '-' :: natToChars (-i).toNat := by
      apply stripWsBoth_id
      intro c hc
      rcases List.mem_cons.mp hc with rfl | hc'
      · decide
      · exact isSpaceCh_false_of_digit c (hd c hc')
    unfold pyInt
    rw [hs]
    show (if ('-' : Char) = '+' then (parseUD (natToChars (-i).toNat)).map Int.ofNat
      else if ('-' : Char) = '-' then
        (parseUD (natToChars (-i).toNat)).map (fun n => -(Int.ofNat n))
      else
        (parseUD ('-' :: natToChars (-i).toNat)).map Int.ofNat) = some i
    rw [if_neg (by decide : ¬ ('-' : Char) = '+'), if_pos rfl]
    rw [parseUD_digits _ hd (natToChars_ne_nil _)]
    rw [show (natToChars (-i).toNat).foldl foldDigit 0 = (-i).toNat from by
      rw [natToChars_foldl _ 0]; simp]
    show some (-(Int.ofNat (-i).toNat)) = some i
    rw [Int.ofNat_eq_coe, Int.toNat_of_nonneg (by omega : (0 : Int) ≤ -i), neg_neg]
  · rw [if_neg hi]
    rw [pyInt_natToChars]
    congr 1
    simpa using Int.toNat_of_nonneg (by omega : 0 ≤ i)

/-! ### C5: whitespace splitting and last-colon splitting lemmas -/

theorem splitWs_cons_ws (c : Char) (l : List Char) (hc : isSpaceCh c = true) :
    splitWs (c :: l) = splitWs l := by
  rw [splitWs.eq_def]
  simp only [hc, if_true]

theorem splitWs_singleton (c : Char) (hc : isSpaceCh c = false) :
    splitWs [c] = [[c]] := by
  rw [splitWs.eq_def]
  simp only [hc, Bool.false_eq_true, if_false]

theorem splitWs_cons_cons_ws (c c2 : Char) (l : List Char)
    (hc : isSpaceCh c = false) (h2 : isSpaceCh c2 = true) :
    splitWs (c :: c2 :: l) = [c] :: splitWs (c2 :: l) := by
  rw [splitWs.eq_def]
  simp only [hc, h2, Bool.false_eq_true, if_false, if_true]

theorem splitWs_cons_cons_tok (c c2 : Char) (l : List Char)
    (t : List Char) (ts : List (List Char))
    (hc : isSpaceCh c = false) (h2 : isSpaceCh c2 = false)
    (hts : splitWs (c2 :: l) = t :: ts) :
    splitWs (c :: c2 :: l) = (c :: t) :: ts := by
  rw [splitWs.eq_def]
  simp only [hc, h2, hts, Bool.false_eq_true, if_false]

theorem splitWs_cons_head (c : Char) (rest : List Char) (h : isSpaceCh c = false) :
    ∃ t ts, splitWs (c :: rest) = (c :: t) :: ts := by
  cases rest with
  | nil => exact ⟨[], [], splitWs_singleton c h⟩
  | cons c2 r2 =>
    by_cases h2 : isSpaceCh c2 = true
    · exact ⟨[], splitWs (c2 :: r2), splitWs_cons_cons_ws c c2 r2 h h2⟩
    · have h2' : isSpaceCh c2 = false := by revert h2; cases isSpaceCh c2 <;> simp
      cases hs : splitWs (c2 :: r2) with
      | nil =>
        exfalso
        obtain ⟨d, ds, hds⟩ : ∃ d ds, splitWs (c2 :: r2) = d :: ds := by
          rw [splitWs.eq_def]
          simp only [h2', Bool.false_eq_true, if_false]
          cases r2 with
          | nil => exact ⟨[c2], [], rfl⟩
          | cons c3 r3 =>
            by_cases h3 : isSpaceCh c3 = true
            · simp only [h3, if_true]
              exact ⟨[c2], splitWs (c3 :: r3), rfl⟩
            · simp only [h3, if_false]
              cases splitWs (c3 :: r3) with
              | nil => exact ⟨[c2], [], rfl⟩
              | cons a as => exact ⟨c2 :: a, as, rfl⟩
        rw [hds] at hs
        cases hs
      | cons t ts =>
        obtain ⟨t', ts', hts'⟩ : ∃ t' ts', splitWs (c2 :: r2) = (c2 :: t') :: ts' := by
          rw [splitWs.eq_def]
          simp only [h2', Bool.false_eq_true, if_false]
          cases r2 with
          | nil => exact ⟨[], [], rfl⟩
          | cons c3 r3 =>
            by_cases h3 : isSpaceCh c3 = true
            · simp only [h3, if_true]
              exact ⟨[], splitWs (c3 :: r3), rfl⟩
            · simp only [h3, if_false]
              cases splitWs (c3 :: r3) with
              | nil => exact ⟨[], [], rfl⟩
              | cons a as => exact ⟨a, as, rfl⟩
        exact ⟨c2 :: t', ts', splitWs_cons_cons_tok c c2 r2 (c2 :: t') ts' h h2' hts'⟩

theorem splitWs_single (s : List Char) (hne : s ≠ [])
    (h : ∀ c ∈ s, isSpaceCh c = false) : splitWs s = [s] := by
  induction s with
  | nil => exact absurd rfl hne
  | cons c rest ih =>
    have hc : isSpaceCh c = false := h c (List.mem_cons_self c rest)
    cases rest with
    | nil => exact splitWs_singleton c hc
    | cons c2 r2 =>
      have hrest : splitWs (c2 :: r2) = [c2 :: r2] :=
        ih (by simp) fun c' hc' => h c' (List.mem_cons_of_mem c hc')
      exact splitWs_cons_cons_tok c c2 r2 (c2 :: r2) [] hc
        (h c2 (by simp)) hrest

theorem splitWs_append_ws (xs : List Char) (sp : Char) (ys : List Char)
    (hsp : isSpaceCh sp = true) :
    splitWs (xs ++ sp :: ys) = splitWs xs ++ splitWs ys := by
  induction xs with
  | nil =>
    rw [List.nil_append, splitWs_cons_ws sp ys hsp]
    rfl
  | cons c xs' ih =>
    rw [List.cons_append]
    by_cases hc : isSpaceCh c = true
    · rw [splitWs_cons_ws c (xs' ++ sp :: ys) hc, ih, splitWs_cons_ws c xs' hc]
    · have hc' : isSpaceCh c = false := by revert hc; cases isSpaceCh c <;> simp
      cases xs' with
      | nil =>
        rw [List.nil_append, splitWs_cons_cons_ws c sp ys hc' hsp,
          splitWs_cons_ws sp ys hsp, splitWs_singleton c hc']
        rfl
      | cons c2 r2 =>
        by_cases h2 : isSpaceCh c2 = true
        · rw [show (c2 :: r2 : List Char) ++ sp :: ys = c2 :: (r2 ++ sp :: ys) from rfl]
          rw [splitWs_cons_cons_ws c c2 (r2 ++ sp :: ys) hc' h2]
          rw [splitWs_cons_cons_ws c c2 r2 hc' h2]
          rw [show (c2 :: (r2 ++ sp :: ys) : List Char) = (c2 :: r2) ++ sp :: ys from rfl, ih]
          rfl
        · have h2' : isSpaceCh c2 = false := by revert h2; cases isSpaceCh c2 <;> simp
          obtain ⟨t, ts, hts⟩ := splitWs_cons_head c2 r2 h2'
          have h0 : splitWs ((c2 :: r2) ++ sp :: ys) = ((c2 :: t) :: ts) ++ splitWs ys := by
            rw [ih, hts]
          simp only [List.cons_append] at h0
          rw [show (c2 :: r2 : List Char) ++ sp :: ys = c2 :: (r2 ++ sp :: ys) from rfl]
          rw [splitWs_cons_cons_tok c c2 (r2 ++ sp :: ys) (c2 :: t) (ts ++ splitWs ys)
            hc' h2' h0]
          rw [splitWs_cons_cons_tok c c2 r2 (c2 :: t) ts hc' h2' hts]
          rfl

theorem rsplitColon_none (s : List Char) (h : ∀ c ∈ s, c ≠ ':') :
    rsplitColon s = none := by
  induction s with
  | nil => rfl
  | cons c rest ih =>
    rw [rsplitColon, ih fun c' hc' => h c' (List.mem_cons_of_mem c hc')]
    rw [if_neg (h c (List.mem_cons_self c rest))]

theorem rsplitColon_append (x y : List Char) (hy : ∀ c ∈ y, c ≠ ':') :
    rsplitColon (x ++ ':' :: y) = some (x, y) := by
  induction x with
  | nil =>
    rw [List.nil_append, rsplitColon, rsplitColon_none y hy, if_pos rfl]
  | cons c x' ih =>
    rw [List.cons_append, rsplitColon, ih]

/-- C5.  Decoding inverts encoding on well-formed references, and encoding
inverts decoding on well-formed keys: `"<Book> <Chapter>:<Verse>"` and the
key parser are mutually inverse round-trips. -/
theorem encode_decode_roundtrip :
    (∀ r : Ref, WellFormedRef r → decodeKey (encodeRef r) = .ok r) ∧
    (∀ k : List Char, WellFormedKey k →
      ∃ r : Ref, decodeKey k = .ok r ∧ encodeRef r = k) := by
  have main : ∀ r : Ref, WellFormedRef r → decodeKey (encodeRef r) = .ok r := by
    intro r hwf
    obtain ⟨hb, hcanon, hc, hv⟩ := hwf
    obtain ⟨rb, rc, rv⟩ := r
    simp only at hcanon hc hv ⊢
    have hcpos : ¬ rc < 0 := by omega
    have hvpos : ¬ rv < 0 := by omega
    have hcstr : intToChars rc = natToChars rc.toNat := by
      unfold intToChars; rw [if_neg hcpos]
    have hvstr : intToChars rv = natToChars rv.toNat := by
      unfold intToChars; rw [if_neg hvpos]
    have hcd := natToChars_digits rc.toNat
    have hvd := natToChars_digits rv.toNat
    have hyc : ∀ c ∈ intToChars rv, c ≠ ':' := by
      rw [hvstr]
      intro c hcmem e
      subst e
      exact absurd (hvd ':' hcmem) (by decide)
    have hsw : splitWs (rb ++ ' ' :: intToChars rc) = splitWs rb ++ [intToChars rc] := by
      rw [splitWs_append_ws rb ' ' _ (by decide)]
      rw [show splitWs (intToChars rc) = [intToChars rc] from by
        rw [hcstr]
        exact splitWs_single _ (natToChars_ne_nil _)
          fun c hcm => isSpaceCh_false_of_digit c (hcd c hcm)]
    unfold decodeKey classifyKey encodeRef
    simp only
    rw [show rb ++ ' ' :: (intToChars rc ++ ':' :: intToChars rv) =
      (rb ++ ' ' :: intToChars rc) ++ ':' :: intToChars rv from by simp]
    rw [rsplitColon_append _ _ hyc]
    simp only [hsw, List.getLast?_concat, pyInt_intToChars, List.dropLast_concat]
    rw [show joinSpace (splitWs rb) = rb from hcanon]
  refine ⟨main, fun k hk => ?_⟩
  obtain ⟨r, hwf, hkey⟩ := hk
  exact ⟨r, by rw [← hkey]; exact main r hwf, hkey⟩

theorem encode_decode_roundtrip_witness :
    decodeKey (encodeRef ⟨"1 John".toList, 3, 16⟩) = .ok ⟨"1 John".toList, 3, 16⟩ ∧
    (∃ r : Ref, decodeKey ("1 John 3:16".toList) = .ok r ∧
      encodeRef r = "1 John 3:16".toList) :=
  ⟨encode_decode_roundtrip.1 ⟨"1 John".toList, 3, 16⟩ (by decide),
   encode_decode_roundtrip.2 ("1 John 3:16".toList)
     ⟨⟨"1 John".toList, 3, 16⟩, by decide, by decide⟩⟩

end BibleSearch
